import Mathlib

set_option maxRecDepth 100000

/-!
# ClassicFM buffer player: shallow embedding and verification

This file embeds the core of the ClassicFM buffer player in Lean 4 and proves
the specification's testable properties against it.

The embedded components, translated from the TypeScript source:

* the fixed-size disk-backed ring buffer (`append`, `consume`, `clear`,
  `getHealth` from the disk-backed `BufferService` variant) — the file contents
  are modelled as a function `Nat → Nat`, a byte as a `Nat`, byte positions as
  `Nat`, and the service's `{totalSize, readOffset, writeOffset}` record as
  `BufferState`;
* the health-threshold edge detector (`updateThresholds` of `HealthService`);
* the rebuild scheduler's lock discipline (`rebuildNow` of `SchedulerService`)
  and the probe-guarded rebuild (`ensureStreamAvailable` / `performRebuild`
  of the scheduler variant with a stream-availability probe);
* the playback state machine (`pause` / `resume` / `runLoop` transitions of
  `PlaybackService`).

Effectful TypeScript code (Effect `Ref` updates, file I/O) is embedded as pure
state-passing functions; the byte stream written to the backing file is made
explicit.
-/

namespace ClassicFM

/-! ## Ring buffer (disk-backed `BufferService` variant)

State record of the service: `{ totalSize, readOffset, writeOffset }`. -/

structure BufferState where
  totalSize : Nat
  readOffset : Nat
  writeOffset : Nat
  deriving Repr, DecidableEq

/-- A ring buffer: the fixed capacity `target` (`targetSize` in the source),
the backing file contents (`buffer.dat`), and the mutable state record. -/
structure RingBuffer where
  target : Nat
  file : Nat → Nat
  st : BufferState

/-- `writeFully(data, position)`: overwrite `data.length` bytes of the backing
file starting at `position`; all other positions keep their contents. -/
def writeFully (file : Nat → Nat) (data : List Nat) (pos : Nat) : Nat → Nat :=
  fun i => if pos ≤ i ∧ i < pos + data.length then data.getD (i - pos) 0 else file i

/-- `readFully(data, position)`: read `len` bytes of the backing file starting
at `position`. -/
def readFully (file : Nat → Nat) (pos len : Nat) : List Nat :=
  (List.range len).map fun i => file (pos + i)

/-- `writeChunk(chunk, writeOffset)`: write a chunk at `writeOffset`, wrapping
at the capacity (`endSpace = target - writeOffset` is the room before the end
of the file; a larger chunk is split into `take endSpace` written at the
offset and `drop endSpace` written at position 0); returns the updated file
and the new write offset. -/
def writeChunk (target : Nat) (file : Nat → Nat) (chunk : List Nat) (writeOffset : Nat) :
    (Nat → Nat) × Nat :=
  if chunk.length ≤ target - writeOffset then
    (writeFully file chunk writeOffset, (writeOffset + chunk.length) % target)
  else
    (writeFully (writeFully file (chunk.take (target - writeOffset)) writeOffset)
       (chunk.drop (target - writeOffset)) 0,
     (chunk.drop (target - writeOffset)).length)

/-- `append(chunk)`: no-op on an empty chunk or zero capacity; a chunk at least
as large as the capacity replaces the whole buffer by its tail; otherwise the
chunk is written at the write offset and, on overflow, the read offset is
advanced by the overflow amount (eviction of the oldest bytes). -/
def RingBuffer.append (b : RingBuffer) (chunk : List Nat) : RingBuffer :=
  if chunk.length = 0 ∨ b.target = 0 then b
  else if b.target ≤ chunk.length then
    { b with
      file := writeFully b.file (chunk.drop (chunk.length - b.target)) 0
      st := ⟨b.target, 0, 0⟩ }
  else
    { b with
      file := (writeChunk b.target b.file chunk b.st.writeOffset).1
      st := ⟨min b.target (b.st.totalSize + chunk.length),
             if 0 < b.st.totalSize + chunk.length - b.target then
               (b.st.readOffset + (b.st.totalSize + chunk.length - b.target)) % b.target
             else b.st.readOffset,
             (writeChunk b.target b.file chunk b.st.writeOffset).2⟩ }

/-- `consume(bytes)`: `null` when `bytes ≤ 0`, the buffer is empty, or the
capacity is zero; otherwise return `min bytes totalSize` bytes starting at the
read offset (wrapping at the capacity), advance the read offset and decrement
`totalSize` by the amount returned.  The request is an `Int` because the
source accepts any JavaScript number and guards `bytes <= 0`. -/
def RingBuffer.consume (b : RingBuffer) (bytes : Int) : Option (List Nat) × RingBuffer :=
  if bytes ≤ 0 ∨ b.st.totalSize = 0 ∨ b.target = 0 then (none, b)
  else
    (some (if min bytes.toNat b.st.totalSize ≤ b.target - b.st.readOffset then
        readFully b.file b.st.readOffset (min bytes.toNat b.st.totalSize)
      else
        readFully b.file b.st.readOffset (b.target - b.st.readOffset) ++
          readFully b.file 0 (min bytes.toNat b.st.totalSize - (b.target - b.st.readOffset))),
     { b with st := ⟨b.st.totalSize - min bytes.toNat b.st.totalSize,
                     (b.st.readOffset + min bytes.toNat b.st.totalSize) % b.target,
                     b.st.writeOffset⟩ })

/-- `clear()`: reset `totalSize` and both offsets to 0. -/
def RingBuffer.clearBuffer (b : RingBuffer) : RingBuffer :=
  { b with st := ⟨0, 0, 0⟩ }

/-- The freshly created buffer: empty state over a zero-filled backing file. -/
def initBuffer (target : Nat) : RingBuffer :=
  ⟨target, fun _ => 0, ⟨0, 0, 0⟩⟩

/-- Fold a sequence of `append` calls over a buffer. -/
def appendAll (b : RingBuffer) (chunks : List (List Nat)) : RingBuffer :=
  chunks.foldl RingBuffer.append b

/-- The last `min l.length n` elements of `l`. -/
def lastBytes (l : List Nat) (n : Nat) : List Nat :=
  l.drop (l.length - n)

/-- The bytes an `Option` result stands for: `none` is the empty result. -/
def optBytes (o : Option (List Nat)) : List Nat :=
  o.getD []

/-! ## The buffer invariant

`Inv b p` relates a buffer to the list `p` of bytes currently pending
(appended, not yet consumed, not evicted), oldest first. -/

/-- The retained-bytes invariant: the state record is consistent and the ring
positions starting at the read offset hold exactly the pending bytes. -/
abbrev Inv (b : RingBuffer) (p : List Nat) : Prop :=
  b.st.totalSize = p.length ∧
  p.length ≤ b.target ∧
  b.st.readOffset < b.target ∧
  b.st.writeOffset = (b.st.readOffset + p.length) % b.target ∧
  ∀ j < p.length, b.file ((b.st.readOffset + j) % b.target) = p.getD j 0

theorem initBuffer_inv {target : Nat} (h : 0 < target) : Inv (initBuffer target) [] := by
  refine ⟨rfl, by simp, h, by simp [initBuffer, Nat.mod_eq_of_lt h], by simp⟩

/-! ### List and modular-arithmetic helpers -/

theorem getD_drop (l : List Nat) (n k : Nat) (h : n + k < l.length) :
    (l.drop n).getD k 0 = l.getD (n + k) 0 := by
  rw [List.getD_eq_getElem _ _ (by simp; omega), List.getD_eq_getElem _ _ h]
  simp

theorem getD_take (l : List Nat) (n k : Nat) (h : k < n) (h2 : k < l.length) :
    (l.take n).getD k 0 = l.getD k 0 := by
  rw [List.getD_eq_getElem _ _ (by simp; omega), List.getD_eq_getElem _ _ h2]
  simp

theorem getD_append_left (p c : List Nat) (m : Nat) (h : m < p.length) :
    (p ++ c).getD m 0 = p.getD m 0 := by
  rw [List.getD_eq_getElem _ _ (by simp; omega), List.getD_eq_getElem _ _ h]
  exact List.getElem_append_left h

theorem getD_append_right (p c : List Nat) (m : Nat) (h : p.length ≤ m)
    (h2 : m < p.length + c.length) :
    (p ++ c).getD m 0 = c.getD (m - p.length) 0 := by
  rw [List.getD_eq_getElem _ _ (by simp; omega), List.getD_eq_getElem _ _ (by omega)]
  exact List.getElem_append_right h

theorem mod_cancel_left {T r a b : Nat} (h : (r + a) % T = (r + b) % T) : a % T = b % T :=
  Nat.ModEq.add_left_cancel' r h

/-! ### Semantics of the file write/read primitives -/

theorem writeFully_in (file : Nat → Nat) (data : List Nat) (pos i : Nat)
    (h1 : pos ≤ i) (h2 : i < pos + data.length) :
    writeFully file data pos i = data.getD (i - pos) 0 := by
  simp [writeFully, h1, h2]

theorem writeFully_out (file : Nat → Nat) (data : List Nat) (pos i : Nat)
    (h : i < pos ∨ pos + data.length ≤ i) :
    writeFully file data pos i = file i := by
  simp only [writeFully]
  rw [if_neg (by omega)]

theorem readFully_length (file : Nat → Nat) (pos len : Nat) :
    (readFully file pos len).length = len := by
  simp [readFully]

theorem readFully_getD (file : Nat → Nat) (pos len i : Nat) (h : i < len) :
    (readFully file pos len).getD i 0 = file (pos + i) := by
  rw [List.getD_eq_getElem _ _ (by simp [readFully]; omega)]
  simp [readFully]

/-! ### Semantics of `writeChunk` on the ring -/

theorem writeChunk_offset (T : Nat) (file : Nat → Nat) (c : List Nat) (w : Nat)
    (hw : w < T) (hc : c.length ≤ T) :
    (writeChunk T file c w).2 = (w + c.length) % T := by
  rw [writeChunk]
  by_cases h : c.length ≤ T - w
  · rw [if_pos h]
  · rw [if_neg h]
    have h1 : T ≤ w + c.length := by omega
    have h2 : w + c.length - T < T := by omega
    rw [Nat.mod_eq_sub_mod h1, Nat.mod_eq_of_lt h2]
    simp
    omega

theorem writeChunk_write (T : Nat) (file : Nat → Nat) (c : List Nat) (w : Nat)
    (hw : w < T) (hc : c.length ≤ T) :
    ∀ k < c.length, (writeChunk T file c w).1 ((w + k) % T) = c.getD k 0 := by
  intro k hk
  rw [writeChunk]
  by_cases h : c.length ≤ T - w
  · rw [if_pos h]
    dsimp only
    have hpos : w + k < T := by omega
    rw [Nat.mod_eq_of_lt hpos, writeFully_in _ _ _ _ (by omega) (by omega)]
    congr 1
    omega
  · rw [if_neg h]
    dsimp only
    have hlen1 : (c.take (T - w)).length = T - w := by simp; omega
    have hlen2 : (c.drop (T - w)).length = c.length - (T - w) := by simp
    by_cases hk2 : k < T - w
    · have hpos : w + k < T := by omega
      rw [Nat.mod_eq_of_lt hpos,
        writeFully_out _ _ _ _ (Or.inr (by omega)),
        writeFully_in _ _ _ _ (by omega) (by omega)]
      have : w + k - w = k := by omega
      rw [this, getD_take _ _ _ hk2 hk]
    · have hT : T ≤ w + k := by omega
      have hlt : w + k - T < T := by omega
      rw [Nat.mod_eq_sub_mod hT, Nat.mod_eq_of_lt hlt,
        writeFully_in _ _ _ _ (by omega) (by omega)]
      have h0 : w + k - T - 0 = w + k - T := by omega
      rw [h0, getD_drop _ _ _ (by omega)]
      congr 1
      omega

theorem writeChunk_keep (T : Nat) (file : Nat → Nat) (c : List Nat) (w : Nat)
    (hw : w < T) (hc : c.length ≤ T) :
    ∀ i < T, (∀ k < c.length, i ≠ (w + k) % T) → (writeChunk T file c w).1 i = file i := by
  intro i hi hout
  rw [writeChunk]
  by_cases h : c.length ≤ T - w
  · rw [if_pos h]
    dsimp only
    rw [writeFully_out]
    rcases Nat.lt_or_ge i w with h1 | h1
    · exact Or.inl h1
    · right
      by_contra h2
      push_neg at h2
      exact hout (i - w) (by omega)
        (by rw [Nat.mod_eq_of_lt (by omega)]; omega)
  · rw [if_neg h]
    dsimp only
    have hlen1 : (c.take (T - w)).length = T - w := by simp; omega
    have hlen2 : (c.drop (T - w)).length = c.length - (T - w) := by simp
    have houter : i < 0 ∨ 0 + (c.drop (T - w)).length ≤ i := by
      right
      by_contra h2
      push_neg at h2
      refine hout (i + (T - w)) (by omega) ?_
      rw [Nat.mod_eq_sub_mod (by omega), Nat.mod_eq_of_lt (by omega)]
      omega
    have hinner : i < w ∨ w + (c.take (T - w)).length ≤ i := by
      left
      by_contra h2
      push_neg at h2
      exact hout (i - w) (by omega)
        (by rw [Nat.mod_eq_of_lt (by omega)]; omega)
    rw [writeFully_out _ _ _ _ houter, writeFully_out _ _ _ _ hinner]

theorem drop_append_add (p c : List Nat) (n : Nat) : (p ++ c).drop (p.length + n) = c.drop n := by
  induction p with
  | nil => simp
  | cons a p ih =>
    have h : (a :: p).length + n = (p.length + n) + 1 := by simp; omega
    rw [h, List.cons_append, List.drop_succ_cons, ih]

theorem append_target (b : RingBuffer) (c : List Nat) : (b.append c).target = b.target := by
  rw [RingBuffer.append]
  split
  · rfl
  · split <;> rfl

/-- `append` preserves the retained-bytes invariant: afterwards the pending
bytes are the last `target` bytes of the old pending bytes followed by the
chunk. -/
theorem append_inv {b : RingBuffer} {p : List Nat} (h : Inv b p) (c : List Nat) :
    Inv (b.append c) (lastBytes (p ++ c) b.target) := by
  obtain ⟨hsz, hle, hr, hw, hcont⟩ := h
  have hT : 0 < b.target := Nat.lt_of_le_of_lt (Nat.zero_le _) hr
  rw [RingBuffer.append]
  by_cases h0 : c.length = 0
  · rw [if_pos (Or.inl h0)]
    have hc : c = [] := List.length_eq_zero.mp h0
    subst hc
    have hpp : lastBytes (p ++ []) b.target = p := by
      rw [List.append_nil, lastBytes]
      have : p.length - b.target = 0 := by omega
      rw [this, List.drop_zero]
    rw [hpp]
    exact ⟨hsz, hle, hr, hw, hcont⟩
  · rw [if_neg (by omega)]
    by_cases h1 : b.target ≤ c.length
    · rw [if_pos h1]
      have htail : lastBytes (p ++ c) b.target = c.drop (c.length - b.target) := by
        rw [lastBytes]
        have h2 : (p ++ c).length - b.target = p.length + (c.length - b.target) := by
          simp
          omega
        rw [h2, drop_append_add]
      have htlen : (c.drop (c.length - b.target)).length = b.target := by
        simp
        omega
      rw [htail]
      refine ⟨htlen.symm, htlen.le, hT, ?_, ?_⟩
      · show (0 : Nat) = (0 + (List.drop (c.length - b.target) c).length) % b.target
        rw [htlen]
        simp
      · intro j hj
        rw [htlen] at hj
        show writeFully b.file (List.drop (c.length - b.target) c) 0 ((0 + j) % b.target)
            = (List.drop (c.length - b.target) c).getD j 0
        have hmod : (0 + j) % b.target = j := by
          rw [Nat.zero_add, Nat.mod_eq_of_lt hj]
        rw [hmod, writeFully_in _ _ _ _ (by omega) (by omega)]
        simp
    · rw [if_neg h1]
      push_neg at h1
      have hwlt : b.st.writeOffset < b.target := by
        rw [hw]
        exact Nat.mod_lt _ hT
      have hoff := writeChunk_offset b.target b.file c b.st.writeOffset hwlt (le_of_lt h1)
      have hwrite := writeChunk_write b.target b.file c b.st.writeOffset hwlt (le_of_lt h1)
      have hkeep := writeChunk_keep b.target b.file c b.st.writeOffset hwlt (le_of_lt h1)
      simp only [hsz]
      have hlenp : (lastBytes (p ++ c) b.target).length = min (p.length + c.length) b.target := by
        simp [lastBytes]
        omega
      refine ⟨?_, ?_, ?_, ?_, ?_⟩
      · show min b.target (p.length + c.length) = (lastBytes (p ++ c) b.target).length
        rw [hlenp]
        omega
      · show (lastBytes (p ++ c) b.target).length ≤ b.target
        rw [hlenp]
        omega
      · show (if 0 < p.length + c.length - b.target then
            (b.st.readOffset + (p.length + c.length - b.target)) % b.target
          else b.st.readOffset) < b.target
        by_cases h2 : 0 < p.length + c.length - b.target
        · rw [if_pos h2]
          exact Nat.mod_lt _ hT
        · rw [if_neg h2]
          exact hr
      · show (writeChunk b.target b.file c b.st.writeOffset).2
          = ((if 0 < p.length + c.length - b.target then
                (b.st.readOffset + (p.length + c.length - b.target)) % b.target
              else b.st.readOffset) + (lastBytes (p ++ c) b.target).length) % b.target
        rw [hoff, hw, Nat.mod_add_mod, hlenp]
        by_cases h2 : 0 < p.length + c.length - b.target
        · rw [if_pos h2, Nat.mod_add_mod]
          congr 1
          omega
        · rw [if_neg h2]
          congr 1
          omega
      · intro j hj
        rw [hlenp] at hj
        show (writeChunk b.target b.file c b.st.writeOffset).1
            (((if 0 < p.length + c.length - b.target then
                 (b.st.readOffset + (p.length + c.length - b.target)) % b.target
               else b.st.readOffset) + j) % b.target)
          = (lastBytes (p ++ c) b.target).getD j 0
        have hposj :
            ((if 0 < p.length + c.length - b.target then
                (b.st.readOffset + (p.length + c.length - b.target)) % b.target
              else b.st.readOffset) + j) % b.target
            = (b.st.readOffset + (p.length + c.length - b.target) + j) % b.target := by
          by_cases h2 : 0 < p.length + c.length - b.target
          · rw [if_pos h2, Nat.mod_add_mod]
          · rw [if_neg h2]
            congr 1
            omega
        rw [hposj]
        have hgd : (lastBytes (p ++ c) b.target).getD j 0
            = (p ++ c).getD (p.length + c.length - b.target + j) 0 := by
          rw [lastBytes, getD_drop _ _ _ (by simp; omega)]
          congr 1
          simp
        rw [hgd]
        by_cases hcase : p.length + c.length - b.target + j < p.length
        · -- byte from the old pending list, not overwritten by the chunk
          rw [getD_append_left _ _ _ hcase]
          rw [hkeep _ (Nat.mod_lt _ hT) ?_]
          · have hc := hcont (p.length + c.length - b.target + j) (by omega)
            rw [← Nat.add_assoc] at hc
            exact hc
          · intro k hk heq
            rw [hw, Nat.mod_add_mod, Nat.add_assoc,
              Nat.add_assoc b.st.readOffset p.length k] at heq
            have hmk := mod_cancel_left heq
            rw [Nat.mod_eq_of_lt (by omega)] at hmk
            by_cases hpk : p.length + k < b.target
            · rw [Nat.mod_eq_of_lt hpk] at hmk
              omega
            · rw [Nat.mod_eq_sub_mod (by omega), Nat.mod_eq_of_lt (by omega)] at hmk
              omega
        · -- byte from the freshly written chunk
          rw [getD_append_right _ _ _ (by omega) (by omega)]
          have hpos2 : (b.st.readOffset + (p.length + c.length - b.target) + j) % b.target
              = (b.st.writeOffset + (p.length + c.length - b.target + j - p.length)) %
                b.target := by
            rw [hw, Nat.mod_add_mod]
            congr 1
            omega
          rw [hpos2]
          exact hwrite _ (by omega)

theorem list_eq_of_getD {l1 l2 : List Nat} (hlen : l1.length = l2.length)
    (h : ∀ i < l1.length, l1.getD i 0 = l2.getD i 0) : l1 = l2 := by
  apply List.ext_getElem hlen
  intro i h1 h2
  have h3 := h i h1
  rwa [List.getD_eq_getElem _ _ h1, List.getD_eq_getElem _ _ h2] at h3

/-- `consume` under the invariant: the returned bytes are the oldest
`min bytes.toNat p.length` pending bytes, and the invariant is preserved with
those bytes dropped from the pending list. -/
theorem consume_inv {b : RingBuffer} {p : List Nat} (h : Inv b p) (n : Int) :
    optBytes (b.consume n).1 = p.take (min n.toNat p.length) ∧
    Inv (b.consume n).2 (p.drop (min n.toNat p.length)) := by
  obtain ⟨hsz, hle, hr, hw, hcont⟩ := h
  have hT : 0 < b.target := Nat.lt_of_le_of_lt (Nat.zero_le _) hr
  by_cases hn : n ≤ 0
  · have hz : n.toNat = 0 := Int.toNat_of_nonpos hn
    rw [RingBuffer.consume, if_pos (Or.inl hn), hz]
    simp only [Nat.zero_min, List.take_zero, List.drop_zero, optBytes]
    exact ⟨rfl, hsz, hle, hr, hw, hcont⟩
  · by_cases hp : p.length = 0
    · have hpnil : p = [] := List.length_eq_zero.mp hp
      subst hpnil
      have hsz0 : b.st.totalSize = 0 := by omega
      rw [RingBuffer.consume, if_pos (Or.inr (Or.inl hsz0)), optBytes]
      simp only [List.take_nil, List.drop_nil, Option.getD_none]
      exact ⟨trivial, hsz, hle, hr, hw, hcont⟩
    · push_neg at hn
      rw [RingBuffer.consume, if_neg (by push_neg; exact ⟨hn, by omega, by omega⟩)]
      simp only [hsz, optBytes, Option.getD_some]
      have htr1 : 1 ≤ min n.toNat p.length := by
        have : 1 ≤ n.toNat := by omega
        omega
      have htr : min n.toNat p.length ≤ p.length := Nat.min_le_right _ _
      constructor
      · show (if min n.toNat p.length ≤ b.target - b.st.readOffset then
            readFully b.file b.st.readOffset (min n.toNat p.length)
          else
            readFully b.file b.st.readOffset (b.target - b.st.readOffset) ++
              readFully b.file 0 (min n.toNat p.length - (b.target - b.st.readOffset)))
          = p.take (min n.toNat p.length)
        by_cases hwrap : min n.toNat p.length ≤ b.target - b.st.readOffset
        · rw [if_pos hwrap]
          apply list_eq_of_getD
          · rw [readFully_length, List.length_take]
            omega
          · intro i hi
            rw [readFully_length] at hi
            rw [readFully_getD _ _ _ _ hi, getD_take _ _ _ hi (by omega)]
            have hlt : b.st.readOffset + i < b.target := by omega
            have hc := hcont i (by omega)
            rwa [Nat.mod_eq_of_lt hlt] at hc
        · rw [if_neg hwrap]
          push_neg at hwrap
          apply list_eq_of_getD
          · rw [List.length_append, readFully_length, readFully_length, List.length_take]
            omega
          · intro i hi
            rw [List.length_append, readFully_length, readFully_length] at hi
            have hi2 : i < min n.toNat p.length := by omega
            rw [getD_take _ _ _ hi2 (by omega)]
            by_cases hfst : i < b.target - b.st.readOffset
            · rw [getD_append_left _ _ _ (by rw [readFully_length]; omega),
                readFully_getD _ _ _ _ hfst]
              have hlt : b.st.readOffset + i < b.target := by omega
              have hc := hcont i (by omega)
              rwa [Nat.mod_eq_of_lt hlt] at hc
            · rw [getD_append_right _ _ _ (by rw [readFully_length]; omega)
                  (by rw [readFully_length, readFully_length]; omega)]
              rw [readFully_length, readFully_getD _ _ _ _ (by omega)]
              have hc := hcont i (by omega)
              have hmod : (b.st.readOffset + i) % b.target
                  = 0 + (i - (b.target - b.st.readOffset)) := by
                rw [Nat.mod_eq_sub_mod (by omega), Nat.mod_eq_of_lt (by omega)]
                omega
              rwa [hmod] at hc
      · refine ⟨?_, ?_, ?_, ?_, ?_⟩
        · show p.length - min n.toNat p.length = (p.drop (min n.toNat p.length)).length
          simp
        · show (p.drop (min n.toNat p.length)).length ≤ b.target
          simp
          omega
        · show (b.st.readOffset + min n.toNat p.length) % b.target < b.target
          exact Nat.mod_lt _ hT
        · show b.st.writeOffset
            = ((b.st.readOffset + min n.toNat p.length) % b.target +
                (p.drop (min n.toNat p.length)).length) % b.target
          rw [Nat.mod_add_mod, hw, List.length_drop]
          congr 1
          omega
        · intro j hj
          rw [List.length_drop] at hj
          show b.file (((b.st.readOffset + min n.toNat p.length) % b.target + j) % b.target)
            = (p.drop (min n.toNat p.length)).getD j 0
          rw [Nat.mod_add_mod, getD_drop _ _ _ (by omega), Nat.add_assoc]
          exact hcont _ (by omega)

theorem lastBytes_append (l c : List Nat) (T : Nat) :
    lastBytes (lastBytes l T ++ c) T = lastBytes (l ++ c) T := by
  by_cases h : l.length ≤ T
  · have h1 : lastBytes l T = l := by
      have h0 : l.length - T = 0 := by omega
      rw [lastBytes, h0, List.drop_zero]
    rw [h1]
  · push_neg at h
    rw [lastBytes, lastBytes, lastBytes]
    have hs : (l.drop (l.length - T)).length = T := by
      simp
      omega
    rw [List.length_append, List.length_append, hs]
    by_cases hc : T ≤ c.length
    · have h1 : T + c.length - T = (l.drop (l.length - T)).length + (c.length - T) := by
        rw [hs]
        omega
      have h2 : l.length + c.length - T = l.length + (c.length - T) := by omega
      rw [h1, drop_append_add, h2, drop_append_add]
    · push_neg at hc
      have h1 : T + c.length - T = c.length := by omega
      rw [h1, List.drop_append_of_le_length (by omega), List.drop_drop,
        List.drop_append_of_le_length (by omega)]
      congr 2
      omega

/-- Folding `append` over any chunk sequence keeps the invariant; the pending
bytes are the last `target` bytes of the total byte stream. -/
theorem appendAll_inv {b : RingBuffer} {p : List Nat} (h : Inv b p)
    (cs : List (List Nat)) :
    Inv (appendAll b cs) (lastBytes (p ++ cs.flatten) b.target) := by
  induction cs generalizing b p with
  | nil =>
    have hpp : lastBytes (p ++ [].flatten) b.target = p := by
      rw [List.flatten_nil, List.append_nil, lastBytes]
      have h0 : p.length - b.target = 0 := by
        have := h.2.1
        omega
      rw [h0, List.drop_zero]
    rw [hpp]
    exact h
  | cons c cs ih =>
    have h1 := append_inv h c
    have h2 := ih h1
    rw [append_target] at h2
    rw [lastBytes_append, List.append_assoc] at h2
    exact h2

/-! ## Claim C1: overflow keeps exactly the suffix of the input -/

/-- C1: for every sequence of `append` calls whose total byte length exceeds
the buffer capacity (`targetSize`), after the last append the buffer's filled
size equals exactly the capacity, and the bytes retained (returned by draining
with `consume`) equal exactly the suffix of length `capacity` of the
concatenation of all appended chunks. -/
theorem append_overflow_drains_suffix (T : Nat) (cs : List (List Nat))
    (hT : 0 < T) (hover : T < cs.flatten.length) :
    (appendAll (initBuffer T) cs).st.totalSize = T ∧
    optBytes ((appendAll (initBuffer T) cs).consume (T : Int)).1
      = cs.flatten.drop (cs.flatten.length - T) := by
  have hinv := appendAll_inv (initBuffer_inv hT) cs
  rw [List.nil_append, show (initBuffer T).target = T from rfl] at hinv
  have hlen : (lastBytes cs.flatten T).length = T := by
    rw [lastBytes, List.length_drop]
    omega
  refine ⟨?_, ?_⟩
  · rw [hinv.1, hlen]
  · have hc := (consume_inv hinv (T : Int)).1
    rw [hc, Int.toNat_natCast, hlen, Nat.min_self,
      List.take_of_length_le (le_of_eq hlen), lastBytes]

/-- Witness for C1, the spec's scenario: capacity 1000, append 600 bytes of
value 1 then 600 bytes of value 2; filled size becomes 1000 and the drained
bytes are the last 1000 of the 1200 written (the first 200 bytes evicted). -/
theorem append_overflow_drains_suffix_witness :
    0 < 1000 ∧
    1000 < ([List.replicate 600 1, List.replicate 600 2] :
      List (List Nat)).flatten.length ∧
    ((appendAll (initBuffer 1000)
        [List.replicate 600 1, List.replicate 600 2]).st.totalSize = 1000 ∧
      optBytes ((appendAll (initBuffer 1000)
          [List.replicate 600 1, List.replicate 600 2]).consume (1000 : Int)).1
        = ([List.replicate 600 1, List.replicate 600 2] :
            List (List Nat)).flatten.drop
            (([List.replicate 600 1, List.replicate 600 2] :
              List (List Nat)).flatten.length - 1000)) :=
  ⟨by decide, by decide,
    append_overflow_drains_suffix 1000 [List.replicate 600 1, List.replicate 600 2]
      (by decide) (by decide)⟩

/-! ## Buffer health (`getHealth`) -/

/-- The derived health record returned by `getHealth`. -/
structure BufferHealth where
  durationMinutes : Int
  currentSize : Nat
  targetSize : Nat
  percentage : Rat
  isHealthy : Bool
  deriving Repr, DecidableEq

/-- JavaScript `Math.round` on the nonnegative rationals produced here:
round half up, `⌊q + 1/2⌋`. -/
def jsRound (q : Rat) : Int :=
  ⌊q + 1 / 2⌋

/-- `targetSize > 0 ? Math.min(100, (currentSize / targetSize) * 100) : 0` —
the raw (un-rounded) buffer percentage. -/
def rawPercentage (b : RingBuffer) : Rat :=
  if 0 < b.target then min 100 ((b.st.totalSize : Rat) / (b.target : Rat) * 100) else 0

/-- `getHealth()`: percentage rounded to two decimals, estimated minutes from
the configured bitrate (`bitrateKBps * 1024` bytes per second), and
`isHealthy` from the raw percentage. -/
def getHealth (bitrateKBps : Nat) (b : RingBuffer) : BufferHealth :=
  { currentSize := b.st.totalSize
    targetSize := b.target
    percentage := (jsRound (rawPercentage b * 100) : Rat) / 100
    durationMinutes := jsRound ((b.st.totalSize : Rat) / ((bitrateKBps : Rat) * 1024) / 60)
    isHealthy := decide (80 ≤ rawPercentage b) }

/-! ## Health threshold edge detector (`updateThresholds` in `HealthService`) -/

/-- The event emitted by one `updateThresholds` sample: the informational
"armed" breadcrumb, the error-level alert, or nothing. -/
inductive ThresholdAction where
  | armedEvent
  | alertEvent
  | noop
  deriving Repr, DecidableEq

/-- One sample of the edge detector, from `Ref.modify(thresholdRef, ...)`:
at ≥ 80 % arm (emitting "armed" when not yet armed); when armed and below
20 % fire the alert and disarm; otherwise do nothing. -/
def updateThresholds (armed : Bool) (percentage : Rat) : ThresholdAction × Bool :=
  if 80 ≤ percentage then
    if armed = false then (.armedEvent, true) else (.noop, armed)
  else if armed = true ∧ percentage < 20 then (.alertEvent, false)
  else (.noop, armed)

/-- Process a sequence of sampled percentages, collecting the emitted events
in order. -/
def runThresholds (armed : Bool) : List Rat → List ThresholdAction × Bool
  | [] => ([], armed)
  | p :: ps =>
    ((updateThresholds armed p).1 :: (runThresholds (updateThresholds armed p).2 ps).1,
     (runThresholds (updateThresholds armed p).2 ps).2)

/-! ## Claim C6 (corrected): the health formulas, and the spec scenario -/

/-- C6 counterexample: with target size 3,600,000 bytes, bitrate 24 KB/s and
filled size 1,800,000 bytes the reported percentage is exactly 50 as claimed,
but the reported estimated minutes is 1 (1,800,000 bytes at 24·1024 = 24,576
bytes/s is ≈73 s ≈ 1.22 min), nowhere near the claimed ≈30. -/
theorem getHealth_scenario_minutes_is_one :
    (getHealth 24 ⟨3600000, fun _ => 0, ⟨1800000, 0, 0⟩⟩).percentage = 50 ∧
    (getHealth 24 ⟨3600000, fun _ => 0, ⟨1800000, 0, 0⟩⟩).durationMinutes = 1 ∧
    ¬(25 ≤ (getHealth 24 ⟨3600000, fun _ => 0, ⟨1800000, 0, 0⟩⟩).durationMinutes ∧
      (getHealth 24 ⟨3600000, fun _ => 0, ⟨1800000, 0, 0⟩⟩).durationMinutes ≤ 35) := by
  refine ⟨?_, ?_, ?_⟩ <;> norm_num [getHealth, jsRound, rawPercentage]

/-- C6 amended: the health report satisfies
`percentage = round₂(min 100 (filled/target*100))`,
`isHealthy ↔ min 100 (filled/target*100) ≥ 80` (on the raw percentage), and
`estimatedMinutes = round(filled / (bitrateKBps·1024) / 60)`; at target
3,600,000 bytes, bitrate 24 KB/s and filled 1,800,000 bytes the percentage
is 50.00 but the estimated minutes is 1, not ≈30. -/
theorem getHealth_formulas (KBps : Nat) (b : RingBuffer) (hT : 0 < b.target) :
    (getHealth KBps b).percentage
      = (jsRound (min 100 ((b.st.totalSize : Rat) / (b.target : Rat) * 100) * 100) : Rat)
        / 100 ∧
    ((getHealth KBps b).isHealthy = true ↔
      80 ≤ min 100 ((b.st.totalSize : Rat) / (b.target : Rat) * 100)) ∧
    (getHealth KBps b).durationMinutes
      = jsRound ((b.st.totalSize : Rat) / ((KBps : Rat) * 1024) / 60) ∧
    (getHealth KBps b).currentSize = b.st.totalSize ∧
    (getHealth KBps b).targetSize = b.target := by
  refine ⟨?_, ?_, rfl, rfl, rfl⟩
  · rw [getHealth]
    rw [rawPercentage, if_pos hT]
  · rw [getHealth]
    show decide (80 ≤ rawPercentage b) = true ↔ _
    rw [rawPercentage, if_pos hT]
    exact decide_eq_true_iff

/-- Witness for the amended C6 at the spec's scenario numbers. -/
theorem getHealth_formulas_witness :
    0 < (⟨3600000, fun _ => 0, ⟨1800000, 0, 0⟩⟩ : RingBuffer).target ∧
    ((getHealth 24 ⟨3600000, fun _ => 0, ⟨1800000, 0, 0⟩⟩).percentage
      = (jsRound (min 100
          (((⟨3600000, fun _ => 0, ⟨1800000, 0, 0⟩⟩ : RingBuffer).st.totalSize : Rat)
            / ((⟨3600000, fun _ => 0, ⟨1800000, 0, 0⟩⟩ : RingBuffer).target : Rat)
            * 100) * 100) : Rat) / 100 ∧
    ((getHealth 24 ⟨3600000, fun _ => 0, ⟨1800000, 0, 0⟩⟩).isHealthy = true ↔
      80 ≤ min 100
        (((⟨3600000, fun _ => 0, ⟨1800000, 0, 0⟩⟩ : RingBuffer).st.totalSize : Rat)
          / ((⟨3600000, fun _ => 0, ⟨1800000, 0, 0⟩⟩ : RingBuffer).target : Rat) * 100)) ∧
    (getHealth 24 ⟨3600000, fun _ => 0, ⟨1800000, 0, 0⟩⟩).durationMinutes
      = jsRound (((⟨3600000, fun _ => 0, ⟨1800000, 0, 0⟩⟩ : RingBuffer).st.totalSize : Rat)
          / ((24 : Rat) * 1024) / 60) ∧
    (getHealth 24 ⟨3600000, fun _ => 0, ⟨1800000, 0, 0⟩⟩).currentSize
      = (⟨3600000, fun _ => 0, ⟨1800000, 0, 0⟩⟩ : RingBuffer).st.totalSize ∧
    (getHealth 24 ⟨3600000, fun _ => 0, ⟨1800000, 0, 0⟩⟩).targetSize
      = (⟨3600000, fun _ => 0, ⟨1800000, 0, 0⟩⟩ : RingBuffer).target) :=
  ⟨by decide, getHealth_formulas 24 ⟨3600000, fun _ => 0, ⟨1800000, 0, 0⟩⟩ (by decide)⟩

/-! ## Claim C3: at most one alert per arm/disarm cycle -/

/-- C3: starting unarmed, the sample sequence 10 → 85 → 15 emits exactly one
"armed" and one "alert" event, and 10 → 85 → 50 emits exactly one "armed" and
no alert; an alert is emitted only when the detector is armed and the sample
is below 20; firing an alert disarms the detector; and the detector becomes
armed only by a sample ≥ 80. -/
theorem updateThresholds_edge_detector :
    ((runThresholds false [10, 85, 15]).1.count .armedEvent = 1 ∧
      (runThresholds false [10, 85, 15]).1.count .alertEvent = 1) ∧
    ((runThresholds false [10, 85, 50]).1.count .armedEvent = 1 ∧
      (runThresholds false [10, 85, 50]).1.count .alertEvent = 0) ∧
    (∀ (armed : Bool) (p : Rat),
      (updateThresholds armed p).1 = .alertEvent → armed = true ∧ p < 20) ∧
    (∀ (armed : Bool) (p : Rat),
      (updateThresholds armed p).1 = .alertEvent → (updateThresholds armed p).2 = false) ∧
    (∀ (armed : Bool) (p : Rat),
      (updateThresholds armed p).2 = true → armed = true ∨ 80 ≤ p) := by
  refine ⟨by decide, by decide, ?_, ?_, ?_⟩
  · intro armed p h
    rw [updateThresholds] at h
    split_ifs at h with h1 h2 h3 <;> simp_all
  · intro armed p h
    obtain ⟨ha, hp⟩ : armed = true ∧ p < 20 := by
      rw [updateThresholds] at h
      split_ifs at h with h1 h2 h3 <;> simp_all
    have hn : ¬(80 : Rat) ≤ p := by
      intro hc
      have := lt_of_le_of_lt hc hp
      norm_num at this
    rw [updateThresholds, if_neg hn, if_pos ⟨ha, hp⟩]
  · intro armed p h
    rw [updateThresholds] at h
    split_ifs at h with h1 h2 h3 <;> simp_all

/-- Witness for C3's universally quantified parts at `armed = true`,
sample 10: the alert fires, reports the armed-and-below-20 condition, and
disarms. -/
theorem updateThresholds_edge_detector_witness :
    (true = true ∧ (10 : Rat) < 20) ∧ (updateThresholds true 10).2 = false ∧
    (true = true ∨ 80 ≤ (85 : Rat)) :=
  ⟨updateThresholds_edge_detector.2.2.1 true 10 (by decide),
   updateThresholds_edge_detector.2.2.2.1 true 10 (by decide),
   updateThresholds_edge_detector.2.2.2.2 true 85 (by decide)⟩

/-! ## Claims C7, C8, C10: `consume` contract and the round trip -/

/-- C7: for every reachable buffer state (related to its pending bytes `p` by
the invariant) and every requested count `n`, `consume` returns exactly the
oldest `min n p.length` unconsumed bytes in append order, decrements the
filled size by exactly the number of bytes returned, and on an empty buffer
returns the empty result `none` without error and without changing the
state. -/
theorem consume_oldest_bytes {b : RingBuffer} {p : List Nat} (h : Inv b p) (n : Int) :
    optBytes (b.consume n).1 = p.take (min n.toNat p.length) ∧
    (b.consume n).2.st.totalSize = p.length - (optBytes (b.consume n).1).length ∧
    (p = [] → b.consume n = (none, b)) := by
  obtain ⟨h1, h2⟩ := consume_inv h n
  refine ⟨h1, ?_, ?_⟩
  · have h3 := h2.1
    rw [List.length_drop] at h3
    rw [h3, h1, List.length_take]
    omega
  · intro hp
    subst hp
    have hz : b.st.totalSize = 0 := h.1
    rw [RingBuffer.consume, if_pos (Or.inr (Or.inl hz))]

/-- Witness for C7: the buffer obtained by appending `[1, 2, 3]` to an empty
4-byte buffer; `consume 2` returns `[1, 2]` and leaves one byte. -/
theorem consume_oldest_bytes_witness :
    Inv ((initBuffer 4).append [1, 2, 3]) [1, 2, 3] ∧
    (optBytes (((initBuffer 4).append [1, 2, 3]).consume 2).1
        = [1, 2, 3].take (min (2 : Int).toNat [1, 2, 3].length) ∧
      (((initBuffer 4).append [1, 2, 3]).consume 2).2.st.totalSize
        = [1, 2, 3].length - (optBytes (((initBuffer 4).append [1, 2, 3]).consume 2).1).length ∧
      ([1, 2, 3] = ([] : List Nat) →
        ((initBuffer 4).append [1, 2, 3]).consume 2
          = (none, (initBuffer 4).append [1, 2, 3]))) :=
  ⟨by decide, consume_oldest_bytes (by decide) 2⟩

/-- C8: appending a chunk with `0 < length ≤ capacity` to an empty buffer and
then consuming exactly that many bytes returns the chunk unchanged. -/
theorem append_consume_roundtrip {b : RingBuffer} (h : Inv b []) (c : List Nat)
    (hc1 : 0 < c.length) (hc2 : c.length ≤ b.target) :
    ((b.append c).consume (c.length : Int)).1 = some c := by
  have h1 := append_inv h c
  rw [List.nil_append] at h1
  have hlast : lastBytes c b.target = c := by
    have h0 : c.length - b.target = 0 := by omega
    rw [lastBytes, h0, List.drop_zero]
  rw [hlast] at h1
  have h2 := (consume_inv h1 (c.length : Int)).1
  rw [Int.toNat_natCast, Nat.min_self, List.take_length] at h2
  cases ho : ((b.append c).consume (c.length : Int)).1 with
  | none =>
    rw [ho] at h2
    exfalso
    have hc : ([] : List Nat) = c := h2
    have : c.length = 0 := by rw [← hc]; rfl
    omega
  | some out =>
    rw [ho] at h2
    have : out = c := h2
    rw [this]

/-- Witness for C8: the chunk `[7, 8, 9]` round-trips through an empty 5-byte
buffer. -/
theorem append_consume_roundtrip_witness :
    Inv (initBuffer 5) [] ∧ 0 < [7, 8, 9].length ∧
    [7, 8, 9].length ≤ (initBuffer 5).target ∧
    (((initBuffer 5).append [7, 8, 9]).consume (([7, 8, 9].length : Nat) : Int)).1
      = some [7, 8, 9] :=
  ⟨by decide, by decide, by decide,
    append_consume_roundtrip (by decide) [7, 8, 9] (by decide) (by decide)⟩

/-- C10 (implicit): `consume` with `n ≤ 0` returns `null` and leaves the state
unchanged even on a non-empty buffer; and a `some` result is never the empty
byte array — it holds exactly `min n filledBytes` (≥ 1) bytes. -/
theorem consume_result_never_empty (b : RingBuffer) (n : Int) :
    (n ≤ 0 → b.consume n = (none, b)) ∧
    ∀ out, (b.consume n).1 = some out →
      out.length = min n.toNat b.st.totalSize ∧ out ≠ [] := by
  constructor
  · intro hn
    rw [RingBuffer.consume, if_pos (Or.inl hn)]
  · intro out hout
    rw [RingBuffer.consume] at hout
    by_cases hg : n ≤ 0 ∨ b.st.totalSize = 0 ∨ b.target = 0
    · rw [if_pos hg] at hout
      exact absurd hout (by simp)
    · rw [if_neg hg] at hout
      push_neg at hg
      obtain ⟨hn, hsz, htg⟩ := hg
      have ho : (if min n.toNat b.st.totalSize ≤ b.target - b.st.readOffset then
          readFully b.file b.st.readOffset (min n.toNat b.st.totalSize)
        else
          readFully b.file b.st.readOffset (b.target - b.st.readOffset) ++
            readFully b.file 0
              (min n.toNat b.st.totalSize - (b.target - b.st.readOffset))) = out :=
        Option.some.inj hout
      have hlen : out.length = min n.toNat b.st.totalSize := by
        rw [← ho]
        by_cases hwrap : min n.toNat b.st.totalSize ≤ b.target - b.st.readOffset
        · rw [if_pos hwrap, readFully_length]
        · rw [if_neg hwrap, List.length_append, readFully_length, readFully_length]
          omega
      have hpos : 0 < out.length := by
        rw [hlen]
        have h1 : 1 ≤ n.toNat := by omega
        have h2 : 1 ≤ b.st.totalSize := by omega
        omega
      exact ⟨hlen, List.ne_nil_of_length_pos hpos⟩

/-- Witness for C10: `consume (-1)` on a non-empty buffer is a `null` no-op,
and the `some` result of `consume 2` on a one-byte buffer is the non-empty
`[5]`. -/
theorem consume_result_never_empty_witness :
    ((initBuffer 4).append [5]).consume (-1) = (none, (initBuffer 4).append [5]) ∧
    ([5].length = min (2 : Int).toNat ((initBuffer 4).append [5]).st.totalSize ∧
      ([5] : List Nat) ≠ []) :=
  ⟨(consume_result_never_empty ((initBuffer 4).append [5]) (-1)).1 (by decide),
   (consume_result_never_empty ((initBuffer 4).append [5]) 2).2 [5] (by decide)⟩

/-! ## Playback state machine (`PlaybackService`) -/

/-- `PlaybackState`: `"stopped" | "buffering" | "playing" | "paused"`. -/
inductive PBState where
  | stopped
  | buffering
  | playing
  | paused
  deriving Repr, DecidableEq

/-- The events that mutate `stateRef`: the four service calls, one iteration
of `runLoop` observing the buffered size (`tick`), and the outer loop's
post-restart adjustment. -/
inductive PBEvent where
  | start
  | stop
  | pause
  | resume
  | tick (bufSize : Nat)
  | restart
  deriving Repr, DecidableEq

/-- `pause()`: only `playing` and `buffering` move to `paused`; any other
state is left unchanged. -/
def playbackPause (s : PBState) : PBState :=
  if s = .playing ∨ s = .buffering then .paused else s

/-- `resume()`: only `paused` moves — and it moves to `buffering`, never to
`playing`; any other state is left unchanged. -/
def playbackResume (s : PBState) : PBState :=
  if s = .paused then .buffering else s

/-- One transition of the playback state, from `PlaybackService`:
`start` moves only `stopped → buffering`; `stop` always stops; `pause` moves
`playing`/`buffering → paused`; `resume` moves only `paused → buffering`;
a `runLoop` iteration leaves `paused`/`stopped` untouched, drops
`playing → buffering` when the buffered size is below `bytesPerChunk`, and
raises `buffering → playing` only when it is not; after a player restart the
outer loop drops `playing → buffering`. -/
def pbStep (bytesPerChunk : Nat) (s : PBState) : PBEvent → PBState
  | .start => if s = .stopped then .buffering else s
  | .stop => .stopped
  | .pause => playbackPause s
  | .resume => playbackResume s
  | .tick bufSize =>
    if s = .paused ∨ s = .stopped then s
    else if bufSize < bytesPerChunk then (if s = .playing then .buffering else s)
    else if s = .buffering then .playing else s
  | .restart => if s = .playing then .buffering else s

/-- Run a sequence of playback events. -/
def pbRun (bytesPerChunk : Nat) (s : PBState) : List PBEvent → PBState
  | [] => s
  | e :: es => pbRun bytesPerChunk (pbStep bytesPerChunk s e) es

theorem pbRun_concat (bpc : Nat) (s : PBState) (xs : List PBEvent) (e : PBEvent) :
    pbRun bpc s (xs ++ [e]) = pbStep bpc (pbRun bpc s xs) e := by
  induction xs generalizing s with
  | nil => rfl
  | cons x xs ih =>
    rw [List.cons_append, pbRun, pbRun, ih]

/-- Any step that lands in `playing` starts from `playing` itself or from
`buffering` on a tick with at least one chunk's worth of buffered bytes. -/
theorem pbStep_into_playing (bpc : Nat) (s : PBState) (e : PBEvent)
    (h : pbStep bpc s e = .playing) :
    s = .playing ∨ (s = .buffering ∧ ∃ n, e = .tick n ∧ bpc ≤ n) := by
  cases e with
  | start =>
    rw [pbStep] at h
    split_ifs at h with h1 <;> simp_all
  | stop =>
    rw [pbStep] at h
    exact absurd h (by simp)
  | pause =>
    rw [pbStep, playbackPause] at h
    split_ifs at h with h1 <;> simp_all
  | resume =>
    rw [pbStep, playbackResume] at h
    split_ifs at h with h1 <;> simp_all
  | tick n =>
    rw [pbStep] at h
    split_ifs at h with h1 h2 h3 h4 <;>
      first
        | exact Or.inl h
        | exact absurd h (by decide)
        | exact Or.inr ⟨by assumption, n, rfl, by omega⟩
  | restart =>
    rw [pbStep] at h
    split_ifs at h with h1 <;> simp_all

/-- C9: `resume` is accepted only in `paused` and always moves to `buffering`,
never directly to `playing`; any step into `playing` comes from `playing` or
from `buffering` on a tick with at least `bytesPerChunk` buffered bytes; and
consequently every event sequence that takes `paused` to `playing` passes
through `buffering` at some prefix. -/
theorem resume_never_skips_buffering (bpc : Nat) :
    (pbStep bpc .paused .resume = .buffering ∧
      ∀ s, s ≠ .paused → pbStep bpc s .resume = s) ∧
    (∀ s e, pbStep bpc s e = .playing →
      s = .playing ∨ (s = .buffering ∧ ∃ n, e = .tick n ∧ bpc ≤ n)) ∧
    (∀ evs : List PBEvent, pbRun bpc .paused evs = .playing →
      ∃ i < evs.length, pbRun bpc .paused (evs.take (i + 1)) = .buffering) := by
  refine ⟨⟨rfl, ?_⟩, pbStep_into_playing bpc, ?_⟩
  · intro s hs
    rw [pbStep, playbackResume, if_neg hs]
  · intro evs
    induction evs using List.reverseRecOn with
    | nil =>
      intro h
      exact absurd h (by rw [pbRun]; simp)
    | append_singleton xs e ih =>
      intro h
      rw [pbRun_concat] at h
      rcases pbStep_into_playing bpc _ _ h with h1 | ⟨h1, _⟩
      · obtain ⟨i, hi, hbuf⟩ := ih h1
        refine ⟨i, by simp; omega, ?_⟩
        rwa [List.take_append_of_le_length (by omega)]
      · have hne : xs ≠ [] := by
          intro hnil
          rw [hnil] at h1
          exact absurd h1 (by rw [pbRun]; simp)
        have hpos : 0 < xs.length := List.length_pos.mpr hne
        refine ⟨xs.length - 1, by simp; omega, ?_⟩
        have hlen : xs.length - 1 + 1 = xs.length := by omega
        rw [hlen, List.take_append_of_le_length (le_refl _), List.take_length]
        exact h1

/-- Witness for C9 with the actual chunk size
`bytesPerChunk = ⌊24·1024·100/1000⌋ = 2457`: from `paused`, the events
`resume` then a tick with 2457 buffered bytes reach `playing`, and the run
passes through `buffering` after the first event. -/
theorem resume_never_skips_buffering_witness :
    (PBState.playing ≠ PBState.paused ∧ pbStep 2457 .playing .resume = .playing) ∧
    (PBState.buffering = PBState.playing ∨
      (PBState.buffering = PBState.buffering ∧
        ∃ n, PBEvent.tick 2457 = PBEvent.tick n ∧ 2457 ≤ n)) ∧
    (pbRun 2457 .paused [PBEvent.resume, PBEvent.tick 2457] = PBState.playing ∧
      ∃ i < ([PBEvent.resume, PBEvent.tick 2457] : List PBEvent).length,
        pbRun 2457 .paused ([PBEvent.resume, PBEvent.tick 2457].take (i + 1))
          = PBState.buffering) :=
  ⟨⟨by decide, (resume_never_skips_buffering 2457).1.2 .playing (by decide)⟩,
   (resume_never_skips_buffering 2457).2.1 .buffering (.tick 2457) (by decide),
   by decide,
   (resume_never_skips_buffering 2457).2.2 [.resume, .tick 2457] (by decide)⟩

/-! ## Rebuild scheduler lock (`rebuildNow` in `SchedulerService`) -/

/-- The scheduler's shared state: the `rebuildLockRef` boolean and the number
of rebuild fibers currently in flight. -/
structure SchedState where
  rebuildLock : Bool
  running : Nat
  deriving Repr, DecidableEq

/-- `Ref.modify(rebuildLockRef, (locked) => (locked ? [false, locked] :
[true, true]))`: the atomic test-and-set, returning `(acquired, new lock)`. -/
def tryAcquireRebuildLock (locked : Bool) : Bool × Bool :=
  if locked then (false, locked) else (true, true)

/-- `rebuildNow()`: run the test-and-set; when acquired, fork the rebuild
fiber (one more in flight) and return `true`; otherwise leave everything
untouched and return `false`. -/
def rebuildNow (s : SchedState) : SchedState × Bool :=
  if (tryAcquireRebuildLock s.rebuildLock).1 then
    (⟨(tryAcquireRebuildLock s.rebuildLock).2, s.running + 1⟩, true)
  else
    (⟨(tryAcquireRebuildLock s.rebuildLock).2, s.running⟩, false)

/-- The rebuild fiber finishing (success or timeout): its
`Effect.ensuring(Ref.set(rebuildLockRef, false))` releases the lock. -/
def finishRebuild (s : SchedState) : SchedState :=
  ⟨false, s.running - 1⟩

/-- The two events touching the scheduler lock. -/
inductive SchedEvent where
  | callRebuildNow
  | rebuildFinished
  deriving Repr, DecidableEq

def schedStep (s : SchedState) : SchedEvent → SchedState
  | .callRebuildNow => (rebuildNow s).1
  | .rebuildFinished => finishRebuild s

def runSched (s : SchedState) : List SchedEvent → SchedState
  | [] => s
  | e :: es => runSched (schedStep s e) es

/-- Event sequences that can actually happen: a rebuild only finishes while
one is in flight. -/
def ValidEvents (s : SchedState) : List SchedEvent → Prop
  | [] => True
  | e :: es => (e = .rebuildFinished → 0 < s.running) ∧ ValidEvents (schedStep s e) es

/-- The mutual-exclusion invariant: at most one rebuild in flight, and the
lock is held exactly while one is. -/
def LockInv (s : SchedState) : Prop :=
  s.running ≤ 1 ∧ (s.rebuildLock = true ↔ s.running = 1)

theorem lockInv_step {s : SchedState} (h : LockInv s) (e : SchedEvent)
    (hv : e = .rebuildFinished → 0 < s.running) : LockInv (schedStep s e) := by
  obtain ⟨lock, run⟩ := s
  obtain ⟨h1, h2⟩ := h
  have h1a : run ≤ 1 := h1
  have h2a : lock = true ↔ run = 1 := h2
  have hva : e = .rebuildFinished → 0 < run := hv
  cases e with
  | callRebuildNow =>
    cases lock with
    | false =>
      have hrun : run = 0 := by
        simp at h2a
        omega
      subst hrun
      show LockInv (rebuildNow ⟨false, 0⟩).1
      simp [rebuildNow, tryAcquireRebuildLock, LockInv]
    | true =>
      have hrun : run = 1 := by
        simp at h2a
        exact h2a
      subst hrun
      show LockInv (rebuildNow ⟨true, 1⟩).1
      simp [rebuildNow, tryAcquireRebuildLock, LockInv]
  | rebuildFinished =>
    have hpos := hva rfl
    have hrun : run = 1 := by omega
    subst hrun
    show LockInv (finishRebuild ⟨lock, 1⟩)
    simp [finishRebuild, LockInv]

theorem runSched_inv {s : SchedState} (h : LockInv s) {evs : List SchedEvent}
    (hv : ValidEvents s evs) : LockInv (runSched s evs) := by
  induction evs generalizing s with
  | nil => exact h
  | cons e es ih => exact ih (lockInv_step h e hv.1) hv.2

/-- C2: `rebuildNow` returns `true` iff the rebuild lock was free at the
moment of the call (atomic test-and-set); a call while the lock is held
returns `false` and changes nothing (no rebuild is forked, so no buffer or
playback mutation happens); a finished rebuild releases the lock, so the
next call returns `true`; and along every valid event sequence at most one
rebuild is in flight (the lock is held exactly while one runs). -/
theorem rebuildNow_mutual_exclusion :
    (∀ s : SchedState, (rebuildNow s).2 = !s.rebuildLock) ∧
    (∀ s : SchedState, s.rebuildLock = true →
      (rebuildNow s).1 = s ∧ (rebuildNow s).2 = false) ∧
    (∀ s : SchedState, (finishRebuild s).rebuildLock = false ∧
      (rebuildNow (finishRebuild s)).2 = true) ∧
    (∀ (s : SchedState) (evs : List SchedEvent),
      LockInv s → ValidEvents s evs → LockInv (runSched s evs)) := by
  refine ⟨?_, ?_, ?_, fun s evs h hv => runSched_inv h hv⟩
  · intro s
    obtain ⟨lock, run⟩ := s
    cases lock <;> simp [rebuildNow, tryAcquireRebuildLock]
  · intro s hs
    obtain ⟨lock, run⟩ := s
    simp only at hs
    subst hs
    simp [rebuildNow, tryAcquireRebuildLock]
  · intro s
    simp [rebuildNow, finishRebuild, tryAcquireRebuildLock]

/-- Witness for C2: a call under a held lock is a `false` no-op, and from a
free lock the trace "call, finish" keeps the invariant. -/
theorem rebuildNow_mutual_exclusion_witness :
    ((rebuildNow ⟨true, 1⟩).1 = (⟨true, 1⟩ : SchedState) ∧
      (rebuildNow ⟨true, 1⟩).2 = false) ∧
    LockInv (runSched ⟨false, 0⟩ [.callRebuildNow, .rebuildFinished]) :=
  ⟨rebuildNow_mutual_exclusion.2.1 ⟨true, 1⟩ rfl,
   rebuildNow_mutual_exclusion.2.2.2 ⟨false, 0⟩ [.callRebuildNow, .rebuildFinished]
     ⟨by decide, by decide⟩
     ⟨by simp, by simp [schedStep, rebuildNow, tryAcquireRebuildLock], trivial⟩⟩

/-! ## Probe-guarded rebuild (`ensureStreamAvailable` / `performRebuild`)

The Source collaborator's behaviour during the probe is an input: the
connection may fail, the stream may end without data, the 10-second
availability timeout may fire, or a first chunk arrives. -/

inductive SourceProbe where
  | connectFailed
  | noData
  | timedOut
  | yields (chunk : List Nat)
  deriving Repr, DecidableEq

/-- `ensureStreamAvailable`: open a connection, take one chunk; fail on
connection error, on an empty stream, or when the bounded timeout fires;
succeed with the first chunk otherwise. -/
def ensureStreamAvailable : SourceProbe → Except String (List Nat)
  | .connectFailed => .error "Connection failed"
  | .noData => .error "Stream produced no data during availability check"
  | .timedOut => .error "Stream availability check timed out"
  | .yields chunk => .ok chunk

/-- The outcome of `Effect.raceFirst(buffer.waitForTarget(), sleep
refillTimeout)`: either the buffer reached target size first or the bounded
refill timeout elapsed first. -/
inductive RefillOutcome where
  | filled
  | refillTimedOut
  deriving Repr, DecidableEq

/-- The externally visible steps a rebuild takes. -/
inductive RebuildAction where
  | pausePlayback
  | clearRing
  | resumePlayback
  | logSkipped
  | logTimeout
  | logComplete
  deriving Repr, DecidableEq

/-- The state a rebuild touches: the ring buffer, the playback state and the
rebuild lock. -/
structure RebuildSystem where
  ring : RingBuffer
  playback : PBState
  rebuildLock : Bool

/-- `performRebuild` followed by the fiber's
`Effect.ensuring(Ref.set(rebuildLockRef, false))`: probe first and skip
everything on failure; otherwise pause, clear, wait for the refill (the
`ingest` function is whatever the concurrent ingestion loop appends during
the bounded wait), then resume — in both refill outcomes.  Returns the new
system state and the actions taken. -/
def runRebuild (probe : SourceProbe) (refill : RefillOutcome)
    (ingest : RingBuffer → RingBuffer) (sys : RebuildSystem) :
    RebuildSystem × List RebuildAction :=
  match ensureStreamAvailable probe with
  | .error _ => ({ sys with rebuildLock := false }, [.logSkipped])
  | .ok _ =>
    ({ ring := ingest sys.ring.clearBuffer
       playback := playbackResume (playbackPause sys.playback)
       rebuildLock := false },
     [.pausePlayback, .clearRing] ++
       (match refill with
        | .filled => [.logComplete]
        | .refillTimedOut => [.logTimeout]) ++ [.resumePlayback])

/-- C4: when the availability probe fails (connection error, empty stream, or
probe timeout), the rebuild is skipped entirely — the ring buffer is left
completely unchanged, playback is never paused, `clear` is never called — and
the rebuild lock is released. -/
theorem rebuild_skipped_when_probe_fails (probe : SourceProbe)
    (refill : RefillOutcome) (ingest : RingBuffer → RingBuffer)
    (sys : RebuildSystem) (h : ∀ c, probe ≠ SourceProbe.yields c) :
    (∃ e, ensureStreamAvailable probe = .error e) ∧
    (runRebuild probe refill ingest sys).1.ring = sys.ring ∧
    (runRebuild probe refill ingest sys).1.playback = sys.playback ∧
    (runRebuild probe refill ingest sys).1.rebuildLock = false ∧
    (runRebuild probe refill ingest sys).2.count .pausePlayback = 0 ∧
    (runRebuild probe refill ingest sys).2.count .clearRing = 0 ∧
    (runRebuild probe refill ingest sys).2.count .resumePlayback = 0 := by
  cases probe with
  | yields c => exact absurd rfl (h c)
  | connectFailed => exact ⟨⟨_, rfl⟩, rfl, rfl, rfl, rfl, rfl, rfl⟩
  | noData => exact ⟨⟨_, rfl⟩, rfl, rfl, rfl, rfl, rfl, rfl⟩
  | timedOut => exact ⟨⟨_, rfl⟩, rfl, rfl, rfl, rfl, rfl, rfl⟩

/-- Witness for C4: a probe whose connection fails leaves a playing system
with its buffer intact and the lock released. -/
theorem rebuild_skipped_when_probe_fails_witness :
    (∀ c, SourceProbe.connectFailed ≠ SourceProbe.yields c) ∧
    ((∃ e, ensureStreamAvailable .connectFailed = .error e) ∧
      (runRebuild .connectFailed .filled id
        ⟨initBuffer 3, .playing, true⟩).1.ring
        = (⟨initBuffer 3, .playing, true⟩ : RebuildSystem).ring ∧
      (runRebuild .connectFailed .filled id
        ⟨initBuffer 3, .playing, true⟩).1.playback
        = (⟨initBuffer 3, .playing, true⟩ : RebuildSystem).playback ∧
      (runRebuild .connectFailed .filled id
        ⟨initBuffer 3, .playing, true⟩).1.rebuildLock = false ∧
      (runRebuild .connectFailed .filled id
        ⟨initBuffer 3, .playing, true⟩).2.count .pausePlayback = 0 ∧
      (runRebuild .connectFailed .filled id
        ⟨initBuffer 3, .playing, true⟩).2.count .clearRing = 0 ∧
      (runRebuild .connectFailed .filled id
        ⟨initBuffer 3, .playing, true⟩).2.count .resumePlayback = 0) :=
  ⟨fun _ h => SourceProbe.noConfusion h,
   rebuild_skipped_when_probe_fails .connectFailed .filled id
     ⟨initBuffer 3, .playing, true⟩ (fun _ h => SourceProbe.noConfusion h)⟩

/-- C5: a rebuild that passes the probe terminates with `resume` called
exactly once — both when the refill wait reaches target size first and when
the bounded refill timeout elapses first (the partial-buffer case) — and the
final playback state is the paused state resumed. -/
theorem rebuild_refill_timeout_still_resumes (c : List Nat)
    (refill : RefillOutcome) (ingest : RingBuffer → RingBuffer)
    (sys : RebuildSystem) :
    ensureStreamAvailable (.yields c) = .ok c ∧
    (runRebuild (.yields c) refill ingest sys).2.count .resumePlayback = 1 ∧
    (runRebuild (.yields c) refill ingest sys).2.getLast? = some .resumePlayback ∧
    (runRebuild (.yields c) refill ingest sys).1.playback
      = playbackResume (playbackPause sys.playback) ∧
    (runRebuild (.yields c) refill ingest sys).1.rebuildLock = false ∧
    (refill = .filled →
      (runRebuild (.yields c) refill ingest sys).2
        = [.pausePlayback, .clearRing, .logComplete, .resumePlayback]) ∧
    (refill = .refillTimedOut →
      (runRebuild (.yields c) refill ingest sys).2
        = [.pausePlayback, .clearRing, .logTimeout, .resumePlayback]) := by
  cases refill with
  | filled =>
    exact ⟨rfl, rfl, rfl, rfl, rfl, fun _ => rfl,
      fun h => RefillOutcome.noConfusion h⟩
  | refillTimedOut =>
    exact ⟨rfl, rfl, rfl, rfl, rfl,
      fun h => RefillOutcome.noConfusion h, fun _ => rfl⟩

end ClassicFM
